import Mathlib

/-!
Verification of the LEMM audio mixing core against its specification.

The development shallowly embeds `src/audio/mixer.py` (class `AudioMixer`:
`mix_stems`, `_chain_with_crossfade`, `_add_final_fadeout`, `master`) and the
model-unavailable branch of `src/audio/processor.py` (`AudioProcessor.process_clip`).

Modelling conventions:
* a mono audio buffer (1-D `np.ndarray` of floats) is a `List ℝ`;
* a stem dictionary (Python `dict`, insertion ordered) is a `List (String × List ℝ)`;
* numpy operations that can raise (`np.zeros` of a negative size, slice
  assignment / in-place arithmetic with mismatched shapes, indexing an empty
  dict) are modelled in `Except String`; a Python exception is `Except.error`;
* `np.abs(x).max()` is `peak`; the source only ever calls it on buffers that
  are nonempty in the claims considered here (on an empty array numpy raises,
  while `peak [] = 0` in the model);
* slice positions in `_chain_with_crossfade` are natural numbers; the claims
  only exercise runs in which every position stays nonnegative, which is
  guaranteed by the precondition `crossfade_samples ≤ clip length` used in
  every theorem about multi-clip chains.
-/

namespace LEMM

/-- `np.abs(l).max()` for a nonempty buffer: largest absolute sample value
(`0` on the empty list, where numpy would raise instead). -/
noncomputable def peak (l : List ℝ) : ℝ :=
  (l.map (fun x => |x|)).foldr max 0

/-- `mixer.py` lines 79-88: the `stem_volumes` table, with the 0.6 default of
`stem_volumes.get(stem_name, 0.6)`. -/
noncomputable def stemVolume (name : String) : ℝ :=
  if name = "vocals" then 1.0
  else if name = "drums" then 0.85
  else if name = "bass" then 0.80
  else if name = "other" then 0.75
  else 0.6

/-- `mixer.py` lines 86-97: the accumulation loop of `mix_stems`.  A stem whose
peak is below `1e-6` is skipped; otherwise `mixed += stem_audio * volume`
(numpy raises on a length mismatch, hence the error case). -/
noncomputable def mixAccum : List (String × List ℝ) → List ℝ → Except String (List ℝ)
  | [], mixed => Except.ok mixed
  | (name, audio) :: rest, mixed =>
    if peak audio < 1 / 1000000 then mixAccum rest mixed
    else if audio.length = mixed.length then
      mixAccum rest (List.zipWith (· + ·) mixed (audio.map (fun x => x * stemVolume name)))
    else Except.error "ValueError: operands could not be broadcast together"

/-- `mixer.py` lines 104-112: post-mix normalization of `mix_stems`.  Only when
the peak exceeds 0.95 is the buffer rescaled to peak exactly 0.95. -/
noncomputable def postNormalize (mixed : List ℝ) : List ℝ :=
  if 0 < peak mixed then
    if 0.95 < peak mixed then mixed.map (fun x => x / peak mixed * 0.95) else mixed
  else mixed

/-- `mixer.py` lines 61-115: `mix_stems`.  The reference shape is taken from the
first stem (`list(stems.values())[0]`, an `IndexError` on an empty dict), the
accumulator starts as `np.zeros_like(reference)`, and the result is the
post-mix-normalized accumulator. -/
noncomputable def mixStems (stems : List (String × List ℝ)) : Except String (List ℝ) :=
  match stems with
  | [] => Except.error "IndexError: list index out of range"
  | (_, ref) :: _ =>
    match mixAccum stems (List.replicate ref.length 0) with
    | Except.error e => Except.error e
    | Except.ok mixed => Except.ok (postNormalize mixed)

/-- `mixer.py` lines 263-268: the soft limiter of `master`, applied to the
samples whose absolute value exceeds 0.9:
`sign(x) * (0.9 + 0.1 * tanh((abs(x) - 0.9) * 10))`. -/
noncomputable def softLimit (x : ℝ) : ℝ :=
  if 0.9 < |x| then Real.sign x * (0.9 + 0.1 * Real.tanh ((|x| - 0.9) * 10)) else x

/-- `mixer.py` lines 229-276: `master`.  Normalize to peak 0.9 unless the input
is silent, then soft-limit every sample above 0.9. -/
noncomputable def master (audio : List ℝ) : List ℝ :=
  (if 0 < peak audio then audio.map (fun x => x / peak audio * 0.9) else audio).map softLimit

/-- `np.linspace a b n` (endpoint included): entry `i` is `a + (b-a)*i/(n-1)`.
For `n = 1` numpy returns `[a]`, matched here because `i = 0` makes the second
summand vanish. -/
noncomputable def linspace (a b : ℝ) (n : ℕ) : List ℝ :=
  (List.range n).map (fun i : ℕ => a + (b - a) * (i : ℝ) / ((n : ℝ) - 1))

/-- Entry `j` of `np.linspace(1, 0, n)`: the linear fade value `1 - j/(n-1)`. -/
noncomputable def linVal (n j : ℕ) : ℝ :=
  1 + (0 - 1) * j / ((n : ℝ) - 1)

/-- `np.power(x, 1.5)` on the nonnegative inputs produced by `linspace 1 0`. -/
noncomputable def fadePower (x : ℝ) : ℝ :=
  x ^ (1.5 : ℝ)

/-- `mixer.py` lines 200-227: `_add_final_fadeout` with `fadeout_samples = C`
(the source reuses the crossfade duration).  A buffer no longer than `C` is
faded whole with a linear ramp; otherwise the last `C` samples are multiplied
by `np.power(np.linspace(1, 0, C), 1.5)`. -/
noncomputable def addFinalFadeout (C : ℕ) (audio : List ℝ) : List ℝ :=
  if audio.length ≤ C then
    List.zipWith (· * ·) audio (linspace 1 0 audio.length)
  else
    audio.take (audio.length - C) ++
      List.zipWith (· * ·) (audio.drop (audio.length - C)) ((linspace 1 0 C).map fadePower)

/-- numpy slice assignment `buf[pos : pos + len(src)] = src` for a nonnegative
start: the slice is clamped to the buffer and numpy raises unless the clamped
slice has exactly the length of `src`. -/
noncomputable def sliceAssignE (buf : List ℝ) (pos : ℕ) (src : List ℝ) :
    Except String (List ℝ) :=
  if min (pos + src.length) buf.length - min pos buf.length = src.length then
    Except.ok (buf.take (min pos buf.length) ++ src ++ buf.drop (min (pos + src.length) buf.length))
  else Except.error "ValueError: could not broadcast input array"

/-- `mixer.py` lines 153-162 and 175-184: the crossfade window update
`result[pos : pos+C] *= fade_out; result[pos : pos+C] += clip[:C] * fade_in`
with `fade_in = np.linspace(0, 1, C)` and `fade_out = np.linspace(1, 0, C)`.
numpy raises unless the clamped window and `clip[:C]` both have length `C`. -/
noncomputable def crossfadeAt (C : ℕ) (buf : List ℝ) (pos : ℕ) (clip : List ℝ) :
    Except String (List ℝ) :=
  if min (pos + C) buf.length - min pos buf.length = C ∧ (clip.take C).length = C then
    Except.ok (buf.take (min pos buf.length) ++
      List.zipWith (· + ·)
        (List.zipWith (· * ·) ((buf.drop (min pos buf.length)).take C) (linspace 1 0 C))
        (List.zipWith (· * ·) (clip.take C) (linspace 0 1 C)) ++
      buf.drop (min (pos + C) buf.length))
  else Except.error "ValueError: operands could not be broadcast together"

/-- `mixer.py` lines 146-191: the clip loop of `_chain_with_crossfade` for the
clips after the first one.  A middle clip crossfades into the window at
`current_pos` and writes its remainder; the last clip does the same but its
remainder first receives `_add_final_fadeout`. -/
noncomputable def chainRest (C : ℕ) :
    List (List ℝ) → List ℝ → ℕ → Except String (List ℝ)
  | [], result, _ => Except.ok result
  | [clip], result, pos =>
    match crossfadeAt C result pos clip with
    | Except.error e => Except.error e
    | Except.ok r1 => sliceAssignE r1 (pos + C) (addFinalFadeout C (clip.drop C))
  | clip :: next :: rest, result, pos =>
    match crossfadeAt C result pos clip with
    | Except.error e => Except.error e
    | Except.ok r1 =>
      match sliceAssignE r1 (pos + C) (clip.drop C) with
      | Except.error e => Except.error e
      | Except.ok r2 => chainRest C (next :: rest) r2 (pos + (clip.length - C))

/-- `mixer.py` line 141: `total_samples = sum(len(clip) for clip in clips) -
(len(clips) - 1) * crossfade_samples`, computed in ℤ exactly as Python does
(for zero clips the subtrahend is `-crossfade_samples`, so the total is
`+crossfade_samples`). -/
def totalLen (C : ℕ) (clips : List (List ℝ)) : ℤ :=
  ((clips.map List.length).sum : ℤ) - ((clips.length : ℤ) - 1) * (C : ℤ)

/-- `mixer.py` lines 135-194: the multi-clip (and, in the source, also the
empty) path of `_chain_with_crossfade`: `result = np.zeros(total_samples)`
(an error for a negative size), the first clip written at position 0, then the
loop over the remaining clips starting at `current_pos = len(first) - C`. -/
noncomputable def chainMulti (C : ℕ) (clips : List (List ℝ)) : Except String (List ℝ) :=
  if totalLen C clips < 0 then
    Except.error "ValueError: negative dimensions are not allowed"
  else
    match clips with
    | [] => Except.ok (List.replicate (totalLen C clips).toNat 0)
    | c :: rest =>
      match sliceAssignE (List.replicate (totalLen C clips).toNat 0) 0 c with
      | Except.error e => Except.error e
      | Except.ok r1 => chainRest C rest r1 (c.length - C)

/-- `mixer.py` lines 121-194: `_chain_with_crossfade` with
`crossfade_samples = C`.  A single clip short-circuits to
`_add_final_fadeout`; every other input goes through the buffer-filling
path. -/
noncomputable def chainWithCrossfade (C : ℕ) (clips : List (List ℝ)) :
    Except String (List ℝ) :=
  if clips.length = 1 then Except.ok (addFinalFadeout C clips.headI)
  else chainMulti C clips

/-- `processor.py` lines 136-143: the StemSet returned by `process_clip` when
the Demucs model is unavailable: the whole clip under `other`, silence
(`np.zeros_like(clip)`) under the three remaining keys. -/
def processClipNoModel (clip : List ℝ) : List (String × List ℝ) :=
  [("vocals", List.replicate clip.length 0),
   ("bass", List.replicate clip.length 0),
   ("drums", List.replicate clip.length 0),
   ("other", clip)]

/-- The concrete StemSet of the spec scenario for `mix_stems`: constant stems
0.8 / 0.7 / 0.6 / 0.5 over 44100 samples. -/
noncomputable def constStems : List (String × List ℝ) :=
  [("vocals", List.replicate 44100 0.8),
   ("drums", List.replicate 44100 0.7),
   ("bass", List.replicate 44100 0.6),
   ("other", List.replicate 44100 0.5)]

/-! ### Basic facts about `peak` -/

theorem peak_nil : peak [] = 0 := rfl

theorem peak_cons (a : ℝ) (l : List ℝ) : peak (a :: l) = max |a| (peak l) := rfl

theorem peak_nonneg (l : List ℝ) : 0 ≤ peak l := by
  induction l with
  | nil => exact le_refl 0
  | cons a l ih => exact le_trans ih (le_max_right _ _)

theorem abs_le_peak {a : ℝ} {l : List ℝ} (h : a ∈ l) : |a| ≤ peak l := by
  induction l with
  | nil => cases h
  | cons b l ih =>
    rcases List.mem_cons.mp h with h | h
    · rw [h, peak_cons]; exact le_max_left _ _
    · exact le_trans (ih h) (le_max_right _ _)

theorem peak_map_mul (l : List ℝ) (c : ℝ) :
    peak (l.map (fun x => x * c)) = peak l * |c| := by
  induction l with
  | nil => simp [peak_nil]
  | cons a l ih =>
    simp only [List.map_cons, peak_cons, ih, abs_mul]
    exact (max_mul_of_nonneg _ _ (abs_nonneg c)).symm

theorem peak_replicate {n : ℕ} (h : 0 < n) (c : ℝ) :
    peak (List.replicate n c) = |c| := by
  induction n with
  | zero => cases h
  | succ n ih =>
    rw [List.replicate_succ, peak_cons]
    rcases Nat.eq_zero_or_pos n with hn | hn
    · subst hn; rw [List.replicate_zero, peak_nil]; exact max_eq_left (abs_nonneg c)
    · rw [ih hn, max_self]

theorem peak_replicate_zero (n : ℕ) : peak (List.replicate n (0 : ℝ)) = 0 := by
  rcases Nat.eq_zero_or_pos n with hn | hn
  · subst hn; rfl
  · rw [peak_replicate hn, abs_zero]

theorem eq_zero_of_peak_le_zero {l : List ℝ} (h : peak l ≤ 0) {a : ℝ} (ha : a ∈ l) :
    a = 0 :=
  abs_eq_zero.mp (le_antisymm (le_trans (abs_le_peak ha) h) (abs_nonneg a))

/-- Peak of a buffer rescaled by `x / m * q` where `m` is its (positive) peak:
exactly `q`. -/
theorem peak_rescale (l : List ℝ) (q : ℝ) (hq : 0 ≤ q) (h : 0 < peak l) :
    peak (l.map (fun x => x / peak l * q)) = q := by
  have hfun : (fun x : ℝ => x / peak l * q) = fun x : ℝ => x * (q / peak l) := by
    funext x; ring
  rw [hfun, peak_map_mul, abs_of_nonneg (div_nonneg hq (le_of_lt h)),
    mul_comm, div_mul_cancel₀ q (ne_of_gt h)]

/-! ### Facts about `master` -/

theorem softLimit_of_abs_le {x : ℝ} (h : |x| ≤ 0.9) : softLimit x = x := by
  unfold softLimit
  rw [if_neg (not_lt.mpr h)]

theorem map_softLimit_of_le {l : List ℝ} (h : ∀ v ∈ l, |v| ≤ 0.9) :
    l.map softLimit = l := by
  rw [show l.map softLimit = l.map id from
    List.map_congr_left fun v hv => softLimit_of_abs_le (h v hv), List.map_id]

/-- For a non-silent input the limiter of `master` is the identity: after the
0.9 normalization no sample exceeds the 0.9 threshold. -/
theorem master_of_pos {x : List ℝ} (h : 0 < peak x) :
    master x = x.map (fun v => v / peak x * 0.9) := by
  unfold master
  rw [if_pos h]
  exact map_softLimit_of_le fun v hv =>
    le_of_le_of_eq (abs_le_peak hv) (peak_rescale x 0.9 (by norm_num) h)

theorem peak_master {x : List ℝ} (h : 0 < peak x) : peak (master x) = 0.9 := by
  rw [master_of_pos h]
  exact peak_rescale x 0.9 (by norm_num) h

theorem master_of_silent {x : List ℝ} (h : ¬ 0 < peak x) : master x = x := by
  unfold master
  rw [if_neg h]
  refine map_softLimit_of_le fun v hv => ?_
  have hv0 : v = 0 := eq_zero_of_peak_le_zero (not_lt.mp h) hv
  rw [hv0, abs_zero]; norm_num

/-! ### Facts about `mix_stems` -/

/-- The claim-relevant behaviour of the post-mix normalization: peak at most
0.95; exactly 0.95 after a rescale; untouched when already within headroom. -/
theorem postNormalize_spec (m : List ℝ) :
    peak (postNormalize m) ≤ 0.95 ∨ postNormalize m = m := by
  unfold postNormalize
  by_cases h0 : 0 < peak m
  · rw [if_pos h0]
    by_cases h95 : 0.95 < peak m
    · rw [if_pos h95]
      exact Or.inl (le_of_eq (peak_rescale m 0.95 (by norm_num) h0))
    · rw [if_neg h95]; exact Or.inr rfl
  · rw [if_neg h0]; exact Or.inr rfl

theorem postNormalize_of_gt {m : List ℝ} (h : 0.95 < peak m) :
    postNormalize m = m.map (fun x => x / peak m * 0.95) := by
  unfold postNormalize
  rw [if_pos (lt_trans (by norm_num) h), if_pos h]

theorem postNormalize_of_le {m : List ℝ} (h : ¬ 0.95 < peak m) :
    postNormalize m = m := by
  unfold postNormalize
  by_cases h0 : 0 < peak m
  · rw [if_pos h0, if_neg h]
  · rw [if_neg h0]

theorem peak_postNormalize_le (m : List ℝ) : peak (postNormalize m) ≤ 0.95 := by
  by_cases h95 : 0.95 < peak m
  · rw [postNormalize_of_gt h95]
    exact le_of_eq (peak_rescale m 0.95 (by norm_num) (lt_trans (by norm_num) h95))
  · rw [postNormalize_of_le h95]
    exact not_lt.mp h95

/-- Stems whose peak is below the `1e-6` threshold are all skipped. -/
theorem mixAccum_skip {stems : List (String × List ℝ)}
    (h : ∀ s ∈ stems, peak s.2 < 1 / 1000000) (acc : List ℝ) :
    mixAccum stems acc = Except.ok acc := by
  induction stems with
  | nil => rfl
  | cons s rest ih =>
    obtain ⟨name, audio⟩ := s
    unfold mixAccum
    rw [if_pos (h _ (List.mem_cons_self _ _))]
    exact ih fun t ht => h t (List.mem_cons_of_mem _ ht)

theorem mixStems_eq {stems : List (String × List ℝ)} {name : String} {ref : List ℝ}
    {rest : List (String × List ℝ)} (h : stems = (name, ref) :: rest) {pre : List ℝ}
    (hacc : mixAccum stems (List.replicate ref.length 0) = Except.ok pre) :
    mixStems stems = Except.ok (postNormalize pre) := by
  subst h
  simp only [mixStems]
  rw [hacc]

theorem stemVolume_vocals : stemVolume "vocals" = 1.0 := by simp [stemVolume]

theorem stemVolume_drums : stemVolume "drums" = 0.85 := by simp [stemVolume]

theorem stemVolume_bass : stemVolume "bass" = 0.80 := by simp [stemVolume]

theorem stemVolume_other : stemVolume "other" = 0.75 := by simp [stemVolume]

/-- One accumulation step of `mix_stems` on constant stems of matching length. -/
theorem mixAccum_cons_add (name : String) (a b : ℝ) (n : ℕ)
    (rest : List (String × List ℝ))
    (h : ¬ peak (List.replicate n a) < 1 / 1000000) :
    mixAccum ((name, List.replicate n a) :: rest) (List.replicate n b) =
      mixAccum rest (List.replicate n (b + a * stemVolume name)) := by
  simp only [mixAccum]
  rw [if_neg h, if_pos (by simp), List.map_replicate, List.zipWith_replicate, min_self]

/-- The spec scenario accumulates to the constant 2.25 (not 1.95). -/
theorem constStems_mixAccum :
    mixAccum constStems (List.replicate 44100 0) =
      Except.ok (List.replicate 44100 (2.25 : ℝ)) := by
  have habs : ∀ c : ℝ, 1 / 1000000 ≤ c → ¬ peak (List.replicate 44100 c) < 1 / 1000000 := by
    intro c hc
    rw [peak_replicate (by norm_num), abs_of_nonneg (le_trans (by norm_num) hc)]
    exact not_lt.mpr hc
  unfold constStems
  rw [mixAccum_cons_add _ _ _ _ _ (habs 0.8 (by norm_num)), stemVolume_vocals,
    mixAccum_cons_add _ _ _ _ _ (habs 0.7 (by norm_num)), stemVolume_drums,
    mixAccum_cons_add _ _ _ _ _ (habs 0.6 (by norm_num)), stemVolume_bass,
    mixAccum_cons_add _ _ _ _ _ (habs 0.5 (by norm_num)), stemVolume_other]
  simp only [mixAccum]
  norm_num

theorem constStems_mixStems :
    mixStems constStems = Except.ok (List.replicate 44100 (0.95 : ℝ)) := by
  unfold constStems
  have hacc : mixAccum
      [("vocals", List.replicate 44100 (0.8 : ℝ)), ("drums", List.replicate 44100 0.7),
        ("bass", List.replicate 44100 0.6), ("other", List.replicate 44100 0.5)]
      (List.replicate (List.replicate 44100 (0.8 : ℝ)).length 0) =
      Except.ok (List.replicate 44100 (2.25 : ℝ)) := by
    rw [List.length_replicate]; exact constStems_mixAccum
  rw [mixStems_eq rfl hacc]
  have hpk : peak (List.replicate 44100 (2.25 : ℝ)) = 2.25 := by
    rw [peak_replicate (by norm_num)]; norm_num
  rw [postNormalize_of_gt (by rw [hpk]; norm_num), hpk, List.map_replicate]
  norm_num

/-- C4, counterexample: the spec computes the pre-normalization constant as
`0.8*1.0 + 0.7*0.85 + 0.6*0.80 + 0.5*0.75 = 1.950`, but the accumulator of
`mix_stems` on that StemSet is the constant `2.25`, not `1.95`. -/
theorem mix_const_scenario_cx :
    mixAccum constStems (List.replicate 44100 0) ≠
      Except.ok (List.replicate 44100 (1.95 : ℝ)) := by
  rw [constStems_mixAccum]
  intro h
  have h2 : List.replicate 44100 (2.25 : ℝ) = List.replicate 44100 (1.95 : ℝ) :=
    Except.ok.inj h
  have h3 : (2.25 : ℝ) = 1.95 :=
    (List.replicate_right_inj (by norm_num : (44100 : ℕ) ≠ 0)).mp h2
  norm_num at h3

/-- C4, amended: mixing the constant StemSet (vocals 0.8, drums 0.7, bass 0.6,
other 0.5) over 44100 samples accumulates, before normalization, to the
constant `0.8*1.0 + 0.7*0.85 + 0.6*0.80 + 0.5*0.75 = 2.25`; this exceeds 0.95
and `mix_stems` rescales the buffer so its output is constant 0.95, i.e. its
peak is exactly 0.95. -/
theorem mix_const_scenario :
    mixAccum constStems (List.replicate 44100 0) =
      Except.ok (List.replicate 44100 (2.25 : ℝ)) ∧
    (0.95 : ℝ) < 2.25 ∧
    mixStems constStems = Except.ok (List.replicate 44100 (0.95 : ℝ)) ∧
    peak (List.replicate 44100 (0.95 : ℝ)) = 0.95 :=
  ⟨constStems_mixAccum, by norm_num, constStems_mixStems, by
    rw [peak_replicate (by norm_num)]; norm_num⟩

/-- C5: `master` is idempotent on every non-silent buffer — exactly, not only
up to floating tolerance: after one application the peak is exactly 0.9, the
second normalization divides by 0.9 and multiplies by 0.9, and the limiter
never fires because no sample exceeds 0.9. -/
theorem master_idempotent (x : List ℝ) (hx : 0 < peak x) :
    master (master x) = master x := by
  have h9 : 0 < peak (master x) := by rw [peak_master hx]; norm_num
  rw [master_of_pos h9, peak_master hx]
  rw [show (master x).map (fun v => v / 0.9 * 0.9) = (master x).map id from
    List.map_congr_left fun v _ => div_mul_cancel₀ v (by norm_num : (0.9 : ℝ) ≠ 0),
    List.map_id]

theorem master_idempotent_witness :
    0 < peak [(1 : ℝ)] ∧ master (master [(1 : ℝ)]) = master [(1 : ℝ)] := by
  have hp : 0 < peak [(1 : ℝ)] := by
    rw [peak_cons, peak_nil, abs_one, max_eq_left (by norm_num : (0 : ℝ) ≤ 1)]
    norm_num
  exact ⟨hp, master_idempotent [(1 : ℝ)] hp⟩

/-- C6: whenever `mix_stems` returns a buffer, its peak is at most 0.95; if
the accumulated (pre-normalization) mix had peak above 0.95 the output peak is
exactly 0.95, and otherwise the buffer is returned unscaled. -/
theorem mixStems_headroom (stems : List (String × List ℝ)) (out : List ℝ)
    (h : mixStems stems = Except.ok out) :
    peak out ≤ 0.95 ∧
    ∀ pre name ref rest, stems = (name, ref) :: rest →
      mixAccum stems (List.replicate ref.length 0) = Except.ok pre →
      ((0.95 < peak pre → peak out = 0.95) ∧ (¬ 0.95 < peak pre → out = pre)) := by
  match stems with
  | [] => exact absurd h (by simp [mixStems])
  | (name0, ref0) :: rest0 =>
    simp only [mixStems] at h
    cases hm : mixAccum ((name0, ref0) :: rest0) (List.replicate ref0.length 0) with
    | error e => rw [hm] at h; cases h
    | ok pre0 =>
      rw [hm] at h
      have hout : out = postNormalize pre0 := (Except.ok.inj h).symm
      constructor
      · rw [hout]; exact peak_postNormalize_le pre0
      · intro pre name ref rest heq hacc
        have hr : ref0 = ref := by
          have := (List.cons.injEq _ _ _ _).mp heq
          exact ((Prod.mk.injEq _ _ _ _).mp this.1).2
        subst hr
        rw [hm] at hacc
        have hpre : pre0 = pre := Except.ok.inj hacc
        subst hpre
        constructor
        · intro h95
          rw [hout, postNormalize_of_gt h95]
          exact peak_rescale pre0 0.95 (by norm_num) (lt_trans (by norm_num) h95)
        · intro h95
          rw [hout, postNormalize_of_le h95]

theorem mixStems_headroom_witness :
    mixStems constStems = Except.ok (List.replicate 44100 (0.95 : ℝ)) ∧
    peak (List.replicate 44100 (0.95 : ℝ)) ≤ 0.95 :=
  ⟨constStems_mixStems,
    (mixStems_headroom constStems (List.replicate 44100 (0.95 : ℝ)) constStems_mixStems).1⟩

/-- C7: on a non-empty StemSet of all-zero buffers `mix_stems` returns the
all-zero buffer (every stem is skipped by the `1e-6` gate and the zero-peak
case skips normalization, so no division by zero occurs), and `master` maps
the all-zero buffer to itself (its zero-peak case also skips the division). -/
theorem silent_input_safety (stems : List (String × List ℝ)) (n : ℕ)
    (name : String) (ref : List ℝ) (rest : List (String × List ℝ))
    (hstem : stems = (name, ref) :: rest)
    (hz : ∀ s ∈ stems, s.2 = List.replicate n (0 : ℝ)) :
    mixStems stems = Except.ok (List.replicate n 0) ∧
    master (List.replicate n (0 : ℝ)) = List.replicate n 0 := by
  have href : ref = List.replicate n 0 := by
    have := hz (name, ref) (by rw [hstem]; exact List.mem_cons_self _ _)
    simpa using this
  have hskip : ∀ s ∈ stems, peak s.2 < 1 / 1000000 := by
    intro s hs
    rw [hz s hs, peak_replicate_zero]
    norm_num
  have hacc : mixAccum stems (List.replicate ref.length 0) =
      Except.ok (List.replicate n 0) := by
    rw [href, List.length_replicate]
    exact mixAccum_skip hskip _
  constructor
  · rw [mixStems_eq hstem hacc, postNormalize_of_le (by rw [peak_replicate_zero]; norm_num)]
  · exact master_of_silent (by rw [peak_replicate_zero]; exact lt_irrefl 0)

theorem silent_input_safety_witness :
    ([(("vocals", List.replicate 3 (0 : ℝ)))] =
      ("vocals", List.replicate 3 (0 : ℝ)) :: []) ∧
    (∀ s ∈ [(("vocals", List.replicate 3 (0 : ℝ)))], s.2 = List.replicate 3 (0 : ℝ)) ∧
    (mixStems [(("vocals", List.replicate 3 (0 : ℝ)))] = Except.ok (List.replicate 3 0) ∧
      master (List.replicate 3 (0 : ℝ)) = List.replicate 3 0) := by
  have hz : ∀ s ∈ [(("vocals", List.replicate 3 (0 : ℝ)))], s.2 = List.replicate 3 (0 : ℝ) := by
    intro s hs
    rw [List.mem_singleton.mp hs]
  exact ⟨rfl, hz, silent_input_safety _ 3 "vocals" _ [] rfl hz⟩

/-- C8: every sample of `master`'s output has absolute value strictly below 1:
after normalization no sample exceeds 0.9 (so in exact arithmetic the tanh
soft-knee never even fires), and on silent input every output sample is 0. -/
theorem master_output_lt_one (x : List ℝ) : ∀ s ∈ master x, |s| < 1 := by
  intro s hs
  by_cases h : 0 < peak x
  · have h1 : |s| ≤ peak (master x) := abs_le_peak hs
    rw [peak_master h] at h1
    calc |s| ≤ 0.9 := h1
    _ < 1 := by norm_num
  · rw [master_of_silent h] at hs
    rw [eq_zero_of_peak_le_zero (not_lt.mp h) hs, abs_zero]
    norm_num

theorem master_output_lt_one_witness :
    (0.9 : ℝ) ∈ master [(0.5 : ℝ)] ∧ |(0.9 : ℝ)| < 1 := by
  have hp : peak [(0.5 : ℝ)] = 0.5 := by
    rw [peak_cons, peak_nil, abs_of_nonneg (by norm_num : (0 : ℝ) ≤ 0.5),
      max_eq_left (by norm_num : (0 : ℝ) ≤ 0.5)]
  have hm : master [(0.5 : ℝ)] = [(0.9 : ℝ)] := by
    rw [master_of_pos (by rw [hp]; norm_num), hp]
    norm_num
  have hmem : (0.9 : ℝ) ∈ master [(0.5 : ℝ)] := by
    rw [hm]; exact List.mem_singleton_self _
  exact ⟨hmem, master_output_lt_one [(0.5 : ℝ)] 0.9 hmem⟩

/-- C9: when the separation model is unavailable, `process_clip` returns
exactly the four stem keys vocals, bass, drums, other; the `other` stem is the
original clip sample-for-sample and the three remaining stems are all-zero
buffers of the clip's length. -/
theorem processClip_fallback_contract (clip : List ℝ) :
    (processClipNoModel clip).map Prod.fst = ["vocals", "bass", "drums", "other"] ∧
    (processClipNoModel clip).lookup "other" = some clip ∧
    (processClipNoModel clip).lookup "vocals" = some (List.replicate clip.length 0) ∧
    (processClipNoModel clip).lookup "bass" = some (List.replicate clip.length 0) ∧
    (processClipNoModel clip).lookup "drums" = some (List.replicate clip.length 0) := by
  refine ⟨rfl, ?_, ?_, ?_, ?_⟩ <;>
    simp [processClipNoModel, List.lookup_cons]

/-! ### Facts about `linspace`, `linVal` and `fadePower` -/

theorem linspace_length (a b : ℝ) (n : ℕ) : (linspace a b n).length = n := by
  unfold linspace
  rw [List.length_map, List.length_range]

theorem linspace_getElem? (a b : ℝ) {n j : ℕ} (h : j < n) :
    (linspace a b n)[j]? = some (a + (b - a) * j / ((n : ℝ) - 1)) := by
  unfold linspace
  rw [List.getElem?_map, List.getElem?_range h]
  rfl

theorem linspace_one_zero_getElem? {n j : ℕ} (h : j < n) :
    (linspace 1 0 n)[j]? = some (linVal n j) := by
  rw [linspace_getElem? 1 0 h]; rfl

theorem linVal_eq_sub (n j : ℕ) : linVal n j = 1 - (j : ℝ) / ((n : ℝ) - 1) := by
  unfold linVal; ring

theorem linVal_zero (n : ℕ) : linVal n 0 = 1 := by
  simp [linVal]

theorem natCast_sub_one_pos {n : ℕ} (h : 2 ≤ n) : (0 : ℝ) < (n : ℝ) - 1 := by
  have h2 : (2 : ℝ) ≤ (n : ℝ) := by exact_mod_cast h
  linarith

theorem linVal_last {n : ℕ} (h : 2 ≤ n) : linVal n (n - 1) = 0 := by
  have hne : ((n : ℝ) - 1) ≠ 0 := ne_of_gt (natCast_sub_one_pos h)
  rw [linVal_eq_sub, Nat.cast_sub (by omega : 1 ≤ n), Nat.cast_one, div_self hne]
  ring

theorem linVal_antitone {n : ℕ} (h : 2 ≤ n) {j k : ℕ} (hjk : j ≤ k) :
    linVal n k ≤ linVal n j := by
  have hpos := natCast_sub_one_pos h
  have hj : (j : ℝ) ≤ (k : ℝ) := by exact_mod_cast hjk
  have hdiv : (j : ℝ) / ((n : ℝ) - 1) ≤ (k : ℝ) / ((n : ℝ) - 1) := by gcongr
  rw [linVal_eq_sub, linVal_eq_sub]
  linarith

theorem linVal_nonneg {n : ℕ} (h : 2 ≤ n) {j : ℕ} (hj : j < n) : 0 ≤ linVal n j := by
  have hpos := natCast_sub_one_pos h
  have hj1 : (j : ℝ) ≤ (n : ℝ) - 1 := by
    have hle : (j : ℝ) ≤ ((n - 1 : ℕ) : ℝ) := by exact_mod_cast (by omega : j ≤ n - 1)
    rwa [Nat.cast_sub (by omega : 1 ≤ n), Nat.cast_one] at hle
  have hdiv : (j : ℝ) / ((n : ℝ) - 1) ≤ 1 := (div_le_one hpos).mpr hj1
  rw [linVal_eq_sub]
  linarith

theorem linVal_le_one {n : ℕ} (h : 2 ≤ n) (j : ℕ) : linVal n j ≤ 1 := by
  have hpos := natCast_sub_one_pos h
  have h0 : 0 ≤ (j : ℝ) / ((n : ℝ) - 1) := div_nonneg (Nat.cast_nonneg j) (le_of_lt hpos)
  rw [linVal_eq_sub]
  linarith

theorem fadePower_zero : fadePower 0 = 0 := by
  unfold fadePower; exact Real.zero_rpow (by norm_num)

theorem fadePower_one : fadePower 1 = 1 := by
  unfold fadePower; exact Real.one_rpow _

theorem fadePower_nonneg {x : ℝ} (h : 0 ≤ x) : 0 ≤ fadePower x :=
  Real.rpow_nonneg h _

theorem fadePower_le_one {x : ℝ} (h0 : 0 ≤ x) (h1 : x ≤ 1) : fadePower x ≤ 1 :=
  Real.rpow_le_one h0 h1 (by norm_num)

theorem fadePower_mono {x y : ℝ} (h0 : 0 ≤ x) (hxy : x ≤ y) : fadePower x ≤ fadePower y :=
  Real.rpow_le_rpow h0 hxy (by norm_num)

/-! ### Facts about `_add_final_fadeout` -/

theorem addFinalFadeout_length (C : ℕ) (a : List ℝ) :
    (addFinalFadeout C a).length = a.length := by
  unfold addFinalFadeout
  by_cases h : a.length ≤ C
  · rw [if_pos h]; simp [linspace_length]
  · rw [if_neg h]
    simp [linspace_length]
    omega

theorem addFinalFadeout_getElem?_short {C : ℕ} {a : List ℝ} (h : a.length ≤ C)
    {j : ℕ} (hj : j < a.length) :
    (addFinalFadeout C a)[j]? = some (a.getD j 0 * linVal a.length j) := by
  unfold addFinalFadeout
  rw [if_pos h]
  simp [List.getElem?_zipWith', linspace_one_zero_getElem? hj,
    List.getElem?_eq_getElem hj, List.getD_eq_getElem _ _ hj]

theorem addFinalFadeout_getElem?_long {C : ℕ} {a : List ℝ} (h : C < a.length)
    {j : ℕ} (hj : j < C) :
    (addFinalFadeout C a)[a.length - C + j]? =
      some (a.getD (a.length - C + j) 0 * fadePower (linVal C j)) := by
  unfold addFinalFadeout
  rw [if_neg (by omega)]
  have htk : (a.take (a.length - C)).length = a.length - C := by simp
  rw [List.getElem?_append_right (by rw [htk]; omega), htk,
    show a.length - C + j - (a.length - C) = j from by omega]
  have hidx : a.length - C + j < a.length := by omega
  simp [List.getElem?_zipWith', List.getElem?_drop, linspace_one_zero_getElem? hj,
    List.getElem?_eq_getElem hidx, List.getD_eq_getElem _ _ hidx]

theorem addFinalFadeout_getLast? {C : ℕ} (hC : 2 ≤ C) {a : List ℝ} (ha : 2 ≤ a.length) :
    (addFinalFadeout C a).getLast? = some 0 := by
  rw [List.getLast?_eq_getElem?, addFinalFadeout_length]
  by_cases h : a.length ≤ C
  · rw [addFinalFadeout_getElem?_short h (by omega), linVal_last ha, mul_zero]
  · rw [show a.length - 1 = a.length - C + (C - 1) from by omega,
      addFinalFadeout_getElem?_long (by omega) (by omega), linVal_last hC,
      fadePower_zero, mul_zero]

/-! ### Facts about the slice operations and the length formula -/

theorem sliceAssignE_ok {buf src : List ℝ} {pos : ℕ} (h : pos + src.length ≤ buf.length) :
    sliceAssignE buf pos src =
      Except.ok (buf.take pos ++ src ++ buf.drop (pos + src.length)) := by
  unfold sliceAssignE
  rw [min_eq_left h, min_eq_left (show pos ≤ buf.length by omega), if_pos (by omega)]

theorem splice_length {buf src : List ℝ} {pos : ℕ} (h : pos + src.length ≤ buf.length) :
    (buf.take pos ++ src ++ buf.drop (pos + src.length)).length = buf.length := by
  simp
  omega

theorem splice_drop_eq {buf src : List ℝ} {pos : ℕ} (h : pos + src.length = buf.length) :
    (buf.take pos ++ src ++ buf.drop (pos + src.length)).drop pos = src := by
  rw [h, List.drop_length, List.append_nil]
  exact List.drop_left' (by simp; omega)

theorem crossfadeAt_ok {C : ℕ} {buf clip : List ℝ} {pos : ℕ}
    (h1 : pos + C ≤ buf.length) (h2 : C ≤ clip.length) :
    crossfadeAt C buf pos clip = Except.ok (buf.take pos ++
      List.zipWith (· + ·)
        (List.zipWith (· * ·) ((buf.drop pos).take C) (linspace 1 0 C))
        (List.zipWith (· * ·) (clip.take C) (linspace 0 1 C)) ++
      buf.drop (pos + C)) := by
  unfold crossfadeAt
  rw [min_eq_left h1, min_eq_left (show pos ≤ buf.length by omega),
    if_pos ⟨by omega, by rw [List.length_take, min_eq_left h2]⟩]

theorem crossfade_window_length {C : ℕ} {buf clip : List ℝ} {pos : ℕ}
    (h1 : pos + C ≤ buf.length) (h2 : C ≤ clip.length) :
    (List.zipWith (· + ·)
        (List.zipWith (· * ·) ((buf.drop pos).take C) (linspace 1 0 C))
        (List.zipWith (· * ·) (clip.take C) (linspace 0 1 C))).length = C := by
  simp [linspace_length]
  omega

theorem sum_sub_cast (C : ℕ) (clips : List (List ℝ))
    (h : ∀ c ∈ clips, C ≤ c.length) :
    (((clips.map (fun c => c.length - C)).sum : ℕ) : ℤ) =
      ((clips.map List.length).sum : ℤ) - (clips.length : ℤ) * C := by
  induction clips with
  | nil => simp
  | cons c rest ih =>
    have hc : C ≤ c.length := h c (List.mem_cons_self _ _)
    have ihh := ih (fun d hd => h d (List.mem_cons_of_mem _ hd))
    simp only [List.map_cons, List.sum_cons, List.length_cons]
    rw [Nat.cast_add, Nat.cast_sub hc, ihh]
    push_cast
    ring

theorem totalLen_eq {C : ℕ} {clips : List (List ℝ)}
    (hall : ∀ c ∈ clips, C ≤ c.length) :
    totalLen C clips = (((clips.map (fun c => c.length - C)).sum + C : ℕ) : ℤ) := by
  unfold totalLen
  rw [Nat.cast_add, sum_sub_cast C clips hall]
  ring

theorem totalLen_toNat {C : ℕ} {clips : List (List ℝ)}
    (hall : ∀ c ∈ clips, C ≤ c.length) :
    (totalLen C clips).toNat = (clips.map (fun c => c.length - C)).sum + C := by
  rw [totalLen_eq hall]
  exact Int.toNat_natCast _

theorem totalLen_nonneg {C : ℕ} {clips : List (List ℝ)}
    (hall : ∀ c ∈ clips, C ≤ c.length) : ¬ totalLen C clips < 0 := by
  rw [totalLen_eq hall]
  exact not_lt.mpr (Int.natCast_nonneg _)

/-! ### The crossfade chaining loop -/

theorem chainRest_single (C : ℕ) (clip result : List ℝ) (pos : ℕ) {r1 : List ℝ}
    (hcf : crossfadeAt C result pos clip = Except.ok r1) :
    chainRest C [clip] result pos =
      sliceAssignE r1 (pos + C) (addFinalFadeout C (clip.drop C)) := by
  simp only [chainRest]
  rw [hcf]

theorem chainRest_cons2 (C : ℕ) (clip next : List ℝ) (rest2 : List (List ℝ))
    (result : List ℝ) (pos : ℕ) {r1 r2 : List ℝ}
    (hcf : crossfadeAt C result pos clip = Except.ok r1)
    (hsl : sliceAssignE r1 (pos + C) (clip.drop C) = Except.ok r2) :
    chainRest C (clip :: next :: rest2) result pos =
      chainRest C (next :: rest2) r2 (pos + (clip.length - C)) := by
  simp only [chainRest]
  rw [hcf]
  show (match sliceAssignE r1 (pos + C) (clip.drop C) with
    | Except.error e => Except.error e
    | Except.ok r2 => chainRest C (next :: rest2) r2 (pos + (clip.length - C))) = _
  rw [hsl]

theorem getLastD_congr {α : Type} (l : List α) (h : l ≠ []) (d1 d2 : α) :
    l.getLastD d1 = l.getLastD d2 := by
  cases l with
  | nil => exact absurd rfl h
  | cons a t => rw [List.getLastD_cons, List.getLastD_cons]

/-- Main invariant of the clip loop: starting from a buffer whose remaining
space after `pos + C` is exactly the space the remaining clips will fill, the
loop succeeds, preserves the buffer length, and the tail of the final buffer
is the faded remainder of the last clip. -/
theorem chainRest_spec (C : ℕ) (rest : List (List ℝ)) :
    ∀ (result : List ℝ) (pos : ℕ), rest ≠ [] →
      (∀ c ∈ rest, C ≤ c.length) →
      pos + C + ((rest.map (fun c => c.length - C)).sum) = result.length →
      ∃ out, chainRest C rest result pos = Except.ok out ∧
        out.length = result.length ∧
        out.drop (result.length - ((rest.getLastD []).length - C)) =
          addFinalFadeout C ((rest.getLastD []).drop C) := by
  induction rest with
  | nil => intro result pos hne _ _; exact absurd rfl hne
  | cons clip tail ih =>
    intro result pos _ hall hinv
    have hclip : C ≤ clip.length := hall clip (List.mem_cons_self _ _)
    cases tail with
    | nil =>
      simp only [List.map_cons, List.map_nil, List.sum_cons, List.sum_nil] at hinv
      have h1 : pos + C ≤ result.length := by omega
      have hW := crossfade_window_length h1 hclip
      have hcf := crossfadeAt_ok h1 hclip
      set r1 := result.take pos ++
          List.zipWith (· + ·)
            (List.zipWith (· * ·) ((result.drop pos).take C) (linspace 1 0 C))
            (List.zipWith (· * ·) (clip.take C) (linspace 0 1 C)) ++
          result.drop (pos + C) with hr1
      have hr1len : r1.length = result.length := by
        rw [hr1]
        simp only [List.length_append, List.length_take, List.length_drop, hW]
        omega
      have hremlen : (addFinalFadeout C (clip.drop C)).length = clip.length - C := by
        rw [addFinalFadeout_length, List.length_drop]
      have hfit : (pos + C) + (addFinalFadeout C (clip.drop C)).length = r1.length := by
        rw [hremlen, hr1len]
        omega
      refine ⟨r1.take (pos + C) ++ addFinalFadeout C (clip.drop C) ++
        r1.drop ((pos + C) + (addFinalFadeout C (clip.drop C)).length), ?_, ?_, ?_⟩
      · rw [chainRest_single C clip result pos hcf]
        exact sliceAssignE_ok (le_of_eq hfit)
      · rw [splice_length (le_of_eq hfit)]
        exact hr1len
      · rw [show (([clip] : List (List ℝ)).getLastD []) = clip from rfl,
          show result.length - (clip.length - C) = pos + C from by omega]
        exact splice_drop_eq hfit
    | cons next rest2 =>
      simp only [List.map_cons, List.sum_cons] at hinv
      have h1 : pos + C ≤ result.length := by omega
      have hW := crossfade_window_length h1 hclip
      have hcf := crossfadeAt_ok h1 hclip
      set r1 := result.take pos ++
          List.zipWith (· + ·)
            (List.zipWith (· * ·) ((result.drop pos).take C) (linspace 1 0 C))
            (List.zipWith (· * ·) (clip.take C) (linspace 0 1 C)) ++
          result.drop (pos + C) with hr1
      have hr1len : r1.length = result.length := by
        rw [hr1]
        simp only [List.length_append, List.length_take, List.length_drop, hW]
        omega
      have hfit2 : (pos + C) + (clip.drop C).length ≤ r1.length := by
        rw [List.length_drop, hr1len]
        omega
      have hsl := sliceAssignE_ok hfit2
      have hr2len := splice_length hfit2
      rw [hr1len] at hr2len
      obtain ⟨out, hok, hlen, hdrop⟩ := ih
        (r1.take (pos + C) ++ clip.drop C ++ r1.drop ((pos + C) + (clip.drop C).length))
        (pos + (clip.length - C))
        (List.cons_ne_nil _ _)
        (fun d hd => hall d (List.mem_cons_of_mem _ hd))
        (by
          simp only [List.map_cons, List.sum_cons]
          rw [hr2len]
          omega)
      refine ⟨out, ?_, ?_, ?_⟩
      · rw [chainRest_cons2 C clip next rest2 result pos hcf hsl]
        exact hok
      · rw [hlen]
        exact hr2len
      · rw [List.getLastD_cons, getLastD_congr (next :: rest2) (List.cons_ne_nil _ _) clip []]
        rw [hr2len] at hdrop
        exact hdrop

theorem chainMulti_cons (C : ℕ) (c : List ℝ) (tail : List (List ℝ))
    (hneg : ¬ totalLen C (c :: tail) < 0) {r1 : List ℝ}
    (hsl : sliceAssignE (List.replicate (totalLen C (c :: tail)).toNat 0) 0 c =
      Except.ok r1) :
    chainMulti C (c :: tail) = chainRest C tail r1 (c.length - C) := by
  simp only [chainMulti]
  rw [if_neg hneg, hsl]

theorem chainMulti_nil (C : ℕ) :
    chainMulti C ([] : List (List ℝ)) = Except.ok (List.replicate C 0) := by
  have ht : totalLen C ([] : List (List ℝ)) = (C : ℤ) := by
    unfold totalLen
    simp only [List.map_nil, List.sum_nil, List.length_nil, Nat.cast_zero]
    ring
  simp only [chainMulti]
  rw [ht, if_neg (not_lt.mpr (Int.natCast_nonneg C)), Int.toNat_natCast]

/-- Success, length and final-tail description of `_chain_with_crossfade` for
at least two clips, each at least `C` samples long. -/
theorem chain_spec (C : ℕ) (clips : List (List ℝ)) (hN : 2 ≤ clips.length)
    (hall : ∀ c ∈ clips, C ≤ c.length) :
    ∃ out, chainWithCrossfade C clips = Except.ok out ∧
      out.length = (clips.map (fun c => c.length - C)).sum + C ∧
      out.drop (out.length - ((clips.getLastD []).length - C)) =
        addFinalFadeout C ((clips.getLastD []).drop C) := by
  obtain ⟨c, tail, rfl⟩ : ∃ c tail, clips = c :: tail := by
    cases clips with
    | nil => simp at hN
    | cons c tail => exact ⟨c, tail, rfl⟩
  have hN2 : 2 ≤ tail.length + 1 := by simpa using hN
  have htne : tail ≠ [] := by
    cases tail with
    | nil => simp at hN2
    | cons a t => exact List.cons_ne_nil _ _
  have hneg := totalLen_nonneg hall
  have htot := totalLen_toNat hall
  have hc : C ≤ c.length := hall c (List.mem_cons_self _ _)
  have hfit1 : 0 + c.length ≤
      (List.replicate (totalLen C (c :: tail)).toNat (0 : ℝ)).length := by
    rw [List.length_replicate, htot]
    simp only [List.map_cons, List.sum_cons]
    omega
  have hsl := sliceAssignE_ok hfit1
  have hr1len : ((List.replicate (totalLen C (c :: tail)).toNat (0 : ℝ)).take 0 ++ c ++
      (List.replicate (totalLen C (c :: tail)).toNat (0 : ℝ)).drop (0 + c.length)).length =
      ((c :: tail).map (fun d => d.length - C)).sum + C := by
    rw [splice_length hfit1, List.length_replicate, htot]
  obtain ⟨out, hok, hlen, hdrop⟩ := chainRest_spec C tail
    ((List.replicate (totalLen C (c :: tail)).toNat (0 : ℝ)).take 0 ++ c ++
      (List.replicate (totalLen C (c :: tail)).toNat (0 : ℝ)).drop (0 + c.length))
    (c.length - C) htne
    (fun d hd => hall d (List.mem_cons_of_mem _ hd))
    (by
      rw [hr1len]
      simp only [List.map_cons, List.sum_cons]
      omega)
  refine ⟨out, ?_, ?_, ?_⟩
  · unfold chainWithCrossfade
    rw [if_neg (by rw [List.length_cons]; omega)]
    rw [chainMulti_cons C c tail hneg hsl]
    exact hok
  · rw [hlen]
    exact hr1len
  · rw [List.getLastD_cons, getLastD_congr tail htne c [], hlen]
    exact hdrop

/-- C1: for at least two clips each strictly longer than the crossfade, the
chained output length is exactly `sum of clip lengths - (N-1) * C`. -/
theorem chain_length_formula (C : ℕ) (clips : List (List ℝ)) (hN : 2 ≤ clips.length)
    (hall : ∀ c ∈ clips, C < c.length) :
    ∃ out, chainWithCrossfade C clips = Except.ok out ∧
      (out.length : ℤ) =
        ((clips.map List.length).sum : ℤ) - ((clips.length : ℤ) - 1) * (C : ℤ) := by
  have hall2 : ∀ c ∈ clips, C ≤ c.length := fun c hc => le_of_lt (hall c hc)
  obtain ⟨out, hok, hlen, _⟩ := chain_spec C clips hN hall2
  refine ⟨out, hok, ?_⟩
  rw [hlen, Nat.cast_add, sum_sub_cast C clips hall2]
  push_cast
  ring

theorem chain_length_formula_witness :
    2 ≤ ([[(1 : ℝ), 1, 1], [1, 1, 1]] : List (List ℝ)).length ∧
    (∀ c ∈ ([[(1 : ℝ), 1, 1], [1, 1, 1]] : List (List ℝ)), 2 < c.length) ∧
    ∃ out, chainWithCrossfade 2 [[(1 : ℝ), 1, 1], [1, 1, 1]] = Except.ok out ∧
      (out.length : ℤ) =
        ((([[(1 : ℝ), 1, 1], [1, 1, 1]] : List (List ℝ)).map List.length).sum : ℤ) -
          ((([[(1 : ℝ), 1, 1], [1, 1, 1]] : List (List ℝ)).length : ℤ) - 1) * (2 : ℤ) := by
  have hall : ∀ c ∈ ([[(1 : ℝ), 1, 1], [1, 1, 1]] : List (List ℝ)), 2 < c.length := by
    intro c hc
    fin_cases hc <;> norm_num
  exact ⟨by norm_num, hall, chain_length_formula 2 _ (by norm_num) hall⟩

/-- C3, counterexample: calling the chainer on the empty clip sequence with
the default crossfade width (2 s at 44100 Hz = 88200 samples) does NOT raise:
the length formula gives `0 - (0 - 1) * 88200 = 88200`, and the function
silently returns that many zeros — an audio buffer, not an error. -/
theorem chain_empty_returns_buffer_cx :
    chainWithCrossfade 88200 ([] : List (List ℝ)) =
      Except.ok (List.replicate 88200 0) ∧
    (List.replicate 88200 (0 : ℝ)).length = 88200 := by
  constructor
  · unfold chainWithCrossfade
    rw [if_neg (by simp)]
    exact chainMulti_nil 88200
  · exact List.length_replicate _ _

/-- C3, amended: for every crossfade width `C`, the chainer on an empty clip
sequence silently returns the all-zero buffer of length `C` (the Python length
formula evaluates to `+crossfade_samples` for zero clips); no error is
raised. -/
theorem chain_empty_silent (C : ℕ) :
    chainWithCrossfade C ([] : List (List ℝ)) = Except.ok (List.replicate C 0) := by
  unfold chainWithCrossfade
  rw [if_neg (by simp)]
  exact chainMulti_nil C

theorem getLast?_drop_of_ne_nil {α : Type} {l : List α} {n : ℕ} (h : l.drop n ≠ []) :
    (l.drop n).getLast? = l.getLast? := by
  conv_rhs => rw [← List.take_append_drop n l]
  rw [List.getLast?_append_of_ne_nil _ h]

/-- C10: whenever the region receiving the final fade-out has at least two
samples — a single-clip chain with a clip of at least two samples, or a
multi-clip chain (satisfying the chainer's precondition `C ≤ len`) whose last
clip has at least `C + 2` samples — the very last sample of the output is
exactly 0, because the final fade coefficient is exactly zero. -/
theorem chain_last_sample_zero (C : ℕ) (clips : List (List ℝ)) (hC : 2 ≤ C)
    (h : (∃ c, clips = [c] ∧ 2 ≤ c.length) ∨
      (2 ≤ clips.length ∧ (∀ c ∈ clips, C ≤ c.length) ∧
        C + 2 ≤ (clips.getLastD []).length)) :
    ∃ out, chainWithCrossfade C clips = Except.ok out ∧ out.getLast? = some 0 := by
  rcases h with ⟨c, rfl, hc2⟩ | ⟨hN, hall, hlast⟩
  · refine ⟨addFinalFadeout C c, ?_, addFinalFadeout_getLast? hC hc2⟩
    unfold chainWithCrossfade
    rw [if_pos (by simp)]
    rfl
  · obtain ⟨out, hok, hlen, hdrop⟩ := chain_spec C clips hN hall
    refine ⟨out, hok, ?_⟩
    have hfl : (addFinalFadeout C ((clips.getLastD []).drop C)).length =
        (clips.getLastD []).length - C := by
      rw [addFinalFadeout_length, List.length_drop]
    have hne : out.drop (out.length - ((clips.getLastD []).length - C)) ≠ [] := by
      rw [hdrop]
      intro hemp
      have hlen0 := congrArg List.length hemp
      rw [hfl, List.length_nil] at hlen0
      omega
    rw [← getLast?_drop_of_ne_nil hne, hdrop]
    have hlen2 : 2 ≤ ((clips.getLastD []).drop C).length := by
      rw [List.length_drop]
      omega
    exact addFinalFadeout_getLast? hC hlen2

theorem chain_last_sample_zero_witness :
    2 ≤ 2 ∧ (∃ c, ([[(1 : ℝ), 1, 1]] : List (List ℝ)) = [c] ∧ 2 ≤ c.length) ∧
    ∃ out, chainWithCrossfade 2 [[(1 : ℝ), 1, 1]] = Except.ok out ∧
      out.getLast? = some 0 :=
  ⟨le_refl 2, ⟨[(1 : ℝ), 1, 1], rfl, by norm_num⟩,
    chain_last_sample_zero 2 [[(1 : ℝ), 1, 1]] (le_refl 2)
      (Or.inl ⟨[(1 : ℝ), 1, 1], rfl, by norm_num⟩)⟩

/-! ### The tail of the chained output (claim C2) -/

theorem getD_drop (l : List ℝ) (n i : ℕ) (d : ℝ) :
    (l.drop n).getD i d = l.getD (n + i) d := by
  rw [List.getD_eq_getElem?_getD, List.getElem?_drop, ← List.getD_eq_getElem?_getD]

theorem getLastD_mem {α : Type} : ∀ (l : List α) (d : α), l ≠ [] → l.getLastD d ∈ l
  | [], _, h => absurd rfl h
  | [a], d, _ => by
    rw [List.getLastD_cons]
    exact List.mem_singleton_self a
  | a :: b :: t, d, _ => by
    rw [List.getLastD_cons]
    exact List.mem_cons_of_mem _ (getLastD_mem (b :: t) a (List.cons_ne_nil _ _))

/-- C2, amended: for a crossfade window of at least two samples, any number of
clips `N ≥ 1` each at least `C` samples long, and — when `N ≥ 2` — a last clip
of at least `2*C` samples (so that the region after its crossfade-in is at
least as long as the fade window), the last `C` samples of the chained output
are exactly the last `C` samples of the last clip multiplied by a fade
coefficient sequence that starts at 1, is non-increasing, stays within
`[0, 1]`, and ends at exactly 0 — the fade-out ramp toward silence.  A single
clip needs no extra condition: the chainer fades its tail directly.  (When a
multi-clip chain's last clip is shorter than `2*C` this fails; see the
counterexample.) -/
theorem chain_tail_fade (C : ℕ) (clips : List (List ℝ)) (hC : 2 ≤ C)
    (hN : 1 ≤ clips.length) (hall : ∀ c ∈ clips, C ≤ c.length)
    (hlast : 2 ≤ clips.length → 2 * C ≤ (clips.getLastD []).length) :
    ∃ (out : List ℝ) (coef : ℕ → ℝ), chainWithCrossfade C clips = Except.ok out ∧
      (∀ j k : ℕ, j ≤ k → k < C → coef k ≤ coef j) ∧
      coef 0 = 1 ∧ coef (C - 1) = 0 ∧
      (∀ j : ℕ, j < C → 0 ≤ coef j ∧ coef j ≤ 1) ∧
      (∀ j : ℕ, j < C →
        out.getD (out.length - C + j) 0 =
          (clips.getLastD []).getD ((clips.getLastD []).length - C + j) 0 * coef j) := by
  rcases Nat.lt_or_ge clips.length 2 with hlt | hge
  · -- single clip: the chainer short-circuits to `_add_final_fadeout`
    have h1 : clips.length = 1 := by omega
    obtain ⟨c, rfl⟩ : ∃ c, clips = [c] := by
      cases clips with
      | nil => simp at h1
      | cons a t =>
        cases t with
        | nil => exact ⟨a, rfl⟩
        | cons b t2 => simp at h1
    have hc : C ≤ c.length := hall c (List.mem_cons_self _ _)
    have hok : chainWithCrossfade C [c] = Except.ok (addFinalFadeout C c) := by
      unfold chainWithCrossfade
      rw [if_pos (by simp)]
      rfl
    have hlen : (addFinalFadeout C c).length = c.length := addFinalFadeout_length C c
    refine ⟨addFinalFadeout C c,
      fun j => if c.length ≤ C then linVal C j else fadePower (linVal C j),
      hok, ?_, ?_, ?_, ?_, ?_⟩
    · intro j k hjk hk
      simp only []
      by_cases hmc : c.length ≤ C
      · rw [if_pos hmc, if_pos hmc]
        exact linVal_antitone hC hjk
      · rw [if_neg hmc, if_neg hmc]
        exact fadePower_mono (linVal_nonneg hC (by omega)) (linVal_antitone hC hjk)
    · simp only []
      by_cases hmc : c.length ≤ C
      · rw [if_pos hmc]
        exact linVal_zero C
      · rw [if_neg hmc, linVal_zero, fadePower_one]
    · simp only []
      by_cases hmc : c.length ≤ C
      · rw [if_pos hmc]
        exact linVal_last hC
      · rw [if_neg hmc, linVal_last hC, fadePower_zero]
    · intro j hj
      simp only []
      by_cases hmc : c.length ≤ C
      · rw [if_pos hmc]
        exact ⟨linVal_nonneg hC (by omega), linVal_le_one hC j⟩
      · rw [if_neg hmc]
        exact ⟨fadePower_nonneg (linVal_nonneg hC (by omega)),
          fadePower_le_one (linVal_nonneg hC (by omega)) (linVal_le_one hC j)⟩
    · intro j hj
      simp only []
      rw [show (([c] : List (List ℝ)).getLastD []) = c from rfl, hlen]
      by_cases hmc : c.length ≤ C
      · have hceq : c.length = C := le_antisymm hmc hc
        rw [if_pos hmc, show c.length - C + j = j from by omega,
          List.getD_eq_getElem?_getD, addFinalFadeout_getElem?_short hmc (by omega),
          Option.getD_some, hceq]
      · have hlong : C < c.length := not_le.mp hmc
        rw [if_neg hmc, List.getD_eq_getElem?_getD,
          addFinalFadeout_getElem?_long hlong hj, Option.getD_some]
  · -- at least two clips: the last clip is at least `2*C` samples long
    have hlast2 := hlast hge
    obtain ⟨out, hok, hlen, hdrop⟩ := chain_spec C clips hge hall
    set last := clips.getLastD [] with hlastdef
    set L := last.length with hL
    set m := L - C with hm
    have hCle : C ≤ L := by omega
    have hCm : C ≤ m := by omega
    have hrem : (last.drop C).length = m := by rw [List.length_drop]
    have hne : clips ≠ [] := by
      intro h0
      rw [h0] at hge
      simp at hge
    have hmem : last ∈ clips := getLastD_mem clips [] hne
    have hsum : m ≤ (clips.map (fun c => c.length - C)).sum := by
      have hmm : last.length - C ∈ clips.map (fun c => c.length - C) :=
        List.mem_map_of_mem _ hmem
      exact List.single_le_sum (fun x _ => Nat.zero_le x) _ hmm
    have hmR : m + C ≤ out.length := by
      rw [hlen]
      omega
    refine ⟨out, fun j => if m ≤ C then linVal C j else fadePower (linVal C j),
      hok, ?_, ?_, ?_, ?_, ?_⟩
    · intro j k hjk hk
      simp only []
      by_cases hmc : m ≤ C
      · rw [if_pos hmc, if_pos hmc]
        exact linVal_antitone hC hjk
      · rw [if_neg hmc, if_neg hmc]
        exact fadePower_mono (linVal_nonneg hC (by omega)) (linVal_antitone hC hjk)
    · simp only []
      by_cases hmc : m ≤ C
      · rw [if_pos hmc]
        exact linVal_zero C
      · rw [if_neg hmc, linVal_zero, fadePower_one]
    · simp only []
      by_cases hmc : m ≤ C
      · rw [if_pos hmc]
        exact linVal_last hC
      · rw [if_neg hmc, linVal_last hC, fadePower_zero]
    · intro j hj
      simp only []
      by_cases hmc : m ≤ C
      · rw [if_pos hmc]
        exact ⟨linVal_nonneg hC (by omega), linVal_le_one hC j⟩
      · rw [if_neg hmc]
        exact ⟨fadePower_nonneg (linVal_nonneg hC (by omega)),
          fadePower_le_one (linVal_nonneg hC (by omega)) (linVal_le_one hC j)⟩
    · intro j hj
      simp only []
      have hidx : out.length - C + j = (out.length - m) + ((m - C) + j) := by omega
      rw [hidx, ← getD_drop, hdrop]
      by_cases hmc : m ≤ C
      · have hmeq : m = C := le_antisymm hmc hCm
        rw [if_pos hmc, show (m - C) + j = j from by omega, List.getD_eq_getElem?_getD,
          addFinalFadeout_getElem?_short (by rw [hrem]; omega) (by rw [hrem]; omega),
          Option.getD_some, getD_drop, hrem, hmeq]
      · have hlong : C < (last.drop C).length := by
          rw [hrem]
          omega
        rw [if_neg hmc, show (m - C) + j = (last.drop C).length - C + j from by rw [hrem],
          List.getD_eq_getElem?_getD, addFinalFadeout_getElem?_long hlong hj,
          Option.getD_some, getD_drop,
          show C + ((last.drop C).length - C + j) = m + j from by rw [hrem]; omega]

theorem chain_tail_fade_witness :
    2 ≤ 2 ∧ 1 ≤ ([[(1 : ℝ), 1, 1], [1, 1, 1, 1]] : List (List ℝ)).length ∧
    (∀ c ∈ ([[(1 : ℝ), 1, 1], [1, 1, 1, 1]] : List (List ℝ)), 2 ≤ c.length) ∧
    (2 ≤ ([[(1 : ℝ), 1, 1], [1, 1, 1, 1]] : List (List ℝ)).length →
      2 * 2 ≤ (([[(1 : ℝ), 1, 1], [1, 1, 1, 1]] : List (List ℝ)).getLastD []).length) ∧
    ∃ (out : List ℝ) (coef : ℕ → ℝ), chainWithCrossfade 2 [[(1 : ℝ), 1, 1], [1, 1, 1, 1]] = Except.ok out ∧
      (∀ j k : ℕ, j ≤ k → k < 2 → coef k ≤ coef j) ∧
      coef 0 = 1 ∧ coef (2 - 1) = 0 ∧
      (∀ j : ℕ, j < 2 → 0 ≤ coef j ∧ coef j ≤ 1) ∧
      (∀ j : ℕ, j < 2 →
        out.getD (out.length - 2 + j) 0 =
          (([[(1 : ℝ), 1, 1], [1, 1, 1, 1]] : List (List ℝ)).getLastD []).getD
            ((([[(1 : ℝ), 1, 1], [1, 1, 1, 1]] :
              List (List ℝ)).getLastD []).length - 2 + j) 0 * coef j) := by
  have hall : ∀ c ∈ ([[(1 : ℝ), 1, 1], [1, 1, 1, 1]] : List (List ℝ)), 2 ≤ c.length := by
    intro c hc
    fin_cases hc <;> norm_num
  have hlast : 2 ≤ ([[(1 : ℝ), 1, 1], [1, 1, 1, 1]] : List (List ℝ)).length →
      2 * 2 ≤ (([[(1 : ℝ), 1, 1], [1, 1, 1, 1]] : List (List ℝ)).getLastD []).length := by
    intro _
    show 2 * 2 ≤ ([(1 : ℝ), 1, 1, 1] : List ℝ).length
    norm_num
  exact ⟨le_refl 2, by norm_num, hall, hlast,
    chain_tail_fade 2 _ (le_refl 2) (by norm_num) hall hlast⟩

theorem linspace_two_fade : linspace 1 0 2 = [1, 0] := by
  unfold linspace
  rw [show List.range 2 = [0, 1] from rfl]
  simp only [List.map_cons, List.map_nil]
  norm_num

theorem linspace_two_rise : linspace 0 1 2 = [0, 1] := by
  unfold linspace
  rw [show List.range 2 = [0, 1] from rfl]
  simp only [List.map_cons, List.map_nil]
  norm_num

/-- C2, counterexample: two clips `[1,1,1]` and `[1,1]` with crossfade width
2 — every clip at least crossfade-width long.  The last clip is exactly the
crossfade width, so the remainder after its crossfade-in is empty, the fade-out
multiplies an empty region, and the output is `[1, 1, 1]`: its final sample
(inside the final crossfade window) is 1, at full input amplitude, so the last
crossfade-width samples of the output are NOT attenuated by a fade ramping
toward silence. -/
theorem chain_tail_not_attenuated_cx :
    chainWithCrossfade 2 [[(1 : ℝ), 1, 1], [1, 1]] = Except.ok [1, 1, 1] ∧
    ∀ out, chainWithCrossfade 2 [[(1 : ℝ), 1, 1], [1, 1]] = Except.ok out →
      out.getD (out.length - 1) 0 = 1 := by
  have htot : totalLen 2 [[(1 : ℝ), 1, 1], [1, 1]] = (3 : ℤ) := by
    unfold totalLen
    simp only [List.map_cons, List.map_nil, List.sum_cons, List.sum_nil,
      List.length_cons, List.length_nil]
    norm_num
  have hsl1 : sliceAssignE
      (List.replicate (totalLen 2 [[(1 : ℝ), 1, 1], [1, 1]]).toNat 0) 0 [(1 : ℝ), 1, 1] =
      Except.ok [(1 : ℝ), 1, 1] := by
    rw [htot]
    show sliceAssignE (List.replicate 3 (0 : ℝ)) 0 [(1 : ℝ), 1, 1] = _
    rw [sliceAssignE_ok (by simp)]
    rfl
  have hcf : crossfadeAt 2 [(1 : ℝ), 1, 1] 1 [(1 : ℝ), 1] = Except.ok [(1 : ℝ), 1, 1] := by
    rw [crossfadeAt_ok (by simp) (by simp), linspace_two_fade, linspace_two_rise]
    show Except.ok ([(1 : ℝ)] ++ [(1 : ℝ) * 1 + 1 * 0, 1 * 0 + 1 * 1] ++ []) = _
    norm_num
  have hfe : addFinalFadeout 2 (([(1 : ℝ), 1]).drop 2) = [] := by
    show addFinalFadeout 2 ([] : List ℝ) = []
    unfold addFinalFadeout
    rw [if_pos (by simp)]
    rfl
  have hmain : chainWithCrossfade 2 [[(1 : ℝ), 1, 1], [1, 1]] = Except.ok [1, 1, 1] := by
    unfold chainWithCrossfade
    rw [if_neg (by simp)]
    rw [chainMulti_cons 2 [(1 : ℝ), 1, 1] [[(1 : ℝ), 1]] (by rw [htot]; norm_num) hsl1]
    show chainRest 2 [[(1 : ℝ), 1]] [(1 : ℝ), 1, 1] 1 = _
    rw [chainRest_single 2 [(1 : ℝ), 1] [(1 : ℝ), 1, 1] 1 hcf, hfe,
      sliceAssignE_ok (by simp)]
    rfl
  refine ⟨hmain, ?_⟩
  intro out hout
  rw [hmain] at hout
  cases Except.ok.inj hout
  rfl

end LEMM
